import Mathlib

/-!
Verification development for the Focal Point persistent-state lifecycle
manager: migration ledger and runner (`src/db.js`), archive creation,
retention eviction, bulk operations and restore (`src/utils/backup.js`),
and the admin restore route (`src/routes/admin.js`).

Modelling conventions:
- filenames and SQL text values are `List Char` (JS strings);
- file contents are `List Nat` (byte sequences);
- the backup directory is a list of files ordered oldest-first by
  modification time (new writes append at the end, matching
  `listBackups`'s `sort by mtime, oldest first`);
- asynchronous I/O outcomes (stream errors, rename failures) are made
  explicit parameters, since the JS code observes them only through
  callbacks;
- fallible operations return `Except`.
-/

namespace FocalPoint

/-- Decidable equality for `Except`, so results of fallible operations
can be compared on concrete inputs. -/
instance {ε α : Type} [DecidableEq ε] [DecidableEq α] : DecidableEq (Except ε α) := fun x y =>
  match x, y with
  | .ok a, .ok b => decidable_of_iff (a = b) (by simp)
  | .error a, .error b => decidable_of_iff (a = b) (by simp)
  | .ok _, .error _ => .isFalse (by simp)
  | .error _, .ok _ => .isFalse (by simp)

/-- Filenames (JS strings) as character lists. -/
abbrev FName := List Char

/-- File contents as byte sequences. -/
abbrev Bytes := List Nat

/-- One file in the backup directory, as surfaced by `listBackups` in
`src/utils/backup.js`: a name and a size.  The directory order stands in
for `mtime` order (oldest first). -/
structure FileEnt where
  name : FName
  size : Nat
deriving DecidableEq

/-- The backup directory: files ordered oldest-first by mtime. -/
abbrev BackupDir := List FileEnt

/-- The characters of `".zip"`. -/
def zipSuffix : FName := ".zip".data

/-- `f.endsWith('.zip')` from `listBackups` (src/utils/backup.js line 52). -/
def isZipName (n : FName) : Bool := zipSuffix.isSuffixOf n

/-- `listBackups` (src/utils/backup.js lines 48-64): all `.zip` files of
the backup directory, oldest first (the directory is kept in mtime
order, so the sort is the identity here). -/
def listBackups (dir : BackupDir) : List FileEnt :=
  dir.filter (fun f => isZipName f.name)

/-- `backups.reduce((sum, b) => sum + b.size, 0)`. -/
def sumSizes (l : List FileEnt) : Nat :=
  l.foldl (fun s b => s + b.size) 0

/-- `totalBackupSize` (src/utils/backup.js lines 67-70). -/
def totalBackupSize (dir : BackupDir) : Nat :=
  sumSizes (listBackups dir)

/-- `fs.unlink(path)`: remove the file with the given name. -/
def unlink (dir : BackupDir) (n : FName) : BackupDir :=
  dir.filter (fun f => f.name != n)

/-- `BACKUP_LIMIT_BYTES` (src/utils/backup.js line 29): 500 MB. -/
def BACKUP_LIMIT_BYTES : Nat := 500 * 1024 * 1024

/-- The `for (const oldest of backups)` loop of `cleanupBackupsForLimit`
(src/utils/backup.js lines 76-80): iterate over the listing snapshot,
breaking once `total + newFileSize <= limit`, otherwise unlinking the
oldest and decrementing the running total by its size.  The size limit
is a parameter so that the loop can be stated for any budget; the source
fixes it to `BACKUP_LIMIT_BYTES` (see `cleanupBackupsForLimit`). -/
def cleanupLoop (limit newFileSize : Nat) :
    List FileEnt → BackupDir → Nat → BackupDir
  | [], dir, _ => dir
  | oldest :: rest, dir, total =>
    if total + newFileSize ≤ limit then dir
    else cleanupLoop limit newFileSize rest (unlink dir oldest.name) (total - oldest.size)

/-- `cleanupBackupsForLimit` (src/utils/backup.js lines 73-81) with the
budget generalized: list the backups, compute the total, run the
eviction loop. -/
def cleanupBackupsForLimitWith (limit : Nat) (dir : BackupDir) (newFileSize : Nat) : BackupDir :=
  cleanupLoop limit newFileSize (listBackups dir) dir (totalBackupSize dir)

/-- `cleanupBackupsForLimit` (src/utils/backup.js lines 73-81) at the
source's fixed 500 MB budget. -/
def cleanupBackupsForLimit (dir : BackupDir) (newFileSize : Nat) : BackupDir :=
  cleanupBackupsForLimitWith BACKUP_LIMIT_BYTES dir newFileSize

/-- `saveBackup` (src/utils/backup.js lines 84-90): evict for the
buffer's length first, then write the new file (appended as newest). -/
def saveBackupWith (limit : Nat) (dir : BackupDir) (len : Nat) (filename : FName) : BackupDir :=
  cleanupBackupsForLimitWith limit dir len ++ [⟨filename, len⟩]

/-- The live persistent state: the bytes of `data/gallery.db` and the
asset tree `data/images` (`none` when the directory does not exist).
A tree is a flat list of (relative path, content) pairs. -/
structure LiveState where
  db : Bytes
  images : Option (List (FName × Bytes))
deriving DecidableEq

/-- A ZIP archive as produced/consumed by backup and restore: an
optional `gallery.db` member and an optional `images/` member. -/
structure Archive where
  galleryDb : Option Bytes
  images : Option (List (FName × Bytes))
deriving DecidableEq

/-- The archive content streamed by `createBackup`
(src/utils/backup.js lines 117-118): the live db file as member
`gallery.db` and the live images directory as member `images`. -/
def buildArchive (live : LiveState) : Archive :=
  { galleryDb := some live.db, images := live.images }

/-- `backup-<timestamp>.zip` (src/utils/backup.js line 98). -/
def backupFilename (ts : FName) : FName :=
  "backup-".data ++ ts ++ ".zip".data

/-- Outcome of the asynchronous archive streaming in `createBackup`:
either the output stream closes after `finalize` with the final file
size, or the archiver emits an error mid-stream after `partialSize`
bytes were written. -/
inductive BuildOutcome where
  | ok (size : Nat)
  | ioError (partialSize : Nat)
deriving DecidableEq

/-- `createBackup` (src/utils/backup.js lines 93-121), budget
generalized.  The write stream is opened at the final path immediately,
so the (possibly partial) file is in the directory in both outcomes.
On `close`, the file is stat'ed and `cleanupBackupsForLimit` runs with
the finalized size — after the write, with the new archive already in
the listing — then the promise resolves with the filename.  On an
archiver error the promise rejects; nothing removes the partial file
and no cleanup runs. -/
def createBackupWith (limit : Nat) (live : LiveState) (dir : BackupDir)
    (ts : FName) (oc : BuildOutcome) : BackupDir × Except FName (FName × Archive) :=
  match oc with
  | .ok size =>
    (cleanupBackupsForLimitWith limit (dir ++ [⟨backupFilename ts, size⟩]) size,
     .ok (backupFilename ts, buildArchive live))
  | .ioError psize =>
    (dir ++ [⟨backupFilename ts, psize⟩], .error "archive error".data)

/-- `createBackup` at the source's fixed 500 MB budget. -/
def createBackup (live : LiveState) (dir : BackupDir)
    (ts : FName) (oc : BuildOutcome) : BackupDir × Except FName (FName × Archive) :=
  createBackupWith BACKUP_LIMIT_BYTES live dir ts oc

/-- JS `\w` (ASCII word character). -/
def isWordChar (c : Char) : Bool := c.isAlphanum || c == '_'

/-- A character matched by the class `[\w.-]`. -/
def validChar (c : Char) : Bool := isWordChar c || c == '.' || c == '-'

/-- The test `/^[\w.-]+\.zip$/.test(filename)`
(src/utils/backup.js line 125).  A string matches that regex iff it is
`p ++ ".zip"` for a nonempty `p` of class characters; since the four
characters of `".zip"` are themselves class characters, this is
equivalent to: every character is in the class, the string ends with
`".zip"`, and the length exceeds 4. -/
def validFilename (n : FName) : Bool :=
  n.all validChar && zipSuffix.isSuffixOf n && decide (zipSuffix.length < n.length)

/-- `deleteBackup` (src/utils/backup.js lines 124-133): throw
`Invalid filename` before touching the filesystem when the name fails
the pattern; otherwise unlink, returning `true` on success and `false`
when the file does not exist. -/
def deleteBackup (dir : BackupDir) (filename : FName) : BackupDir × Except FName Bool :=
  if validFilename filename then
    if dir.any (fun f => f.name == filename) then (unlink dir filename, .ok true)
    else (dir, .ok false)
  else (dir, .error "Invalid filename".data)

/-- The `for (const filename of filenames)` loop of `bulkDeleteBackups`
(src/utils/backup.js lines 138-142): each `deleteBackup` runs inside
`try {} catch {}`, so a thrown `Invalid filename` only skips that name;
`deleted` counts the `true` returns. -/
def bulkDeleteGo (dir : BackupDir) (deleted : Nat) : List FName → BackupDir × Nat
  | [] => (dir, deleted)
  | fn :: rest =>
    match deleteBackup dir fn with
    | (d, .ok true) => bulkDeleteGo d (deleted + 1) rest
    | (d, .ok false) => bulkDeleteGo d deleted rest
    | (d, .error _) => bulkDeleteGo d deleted rest

/-- `bulkDeleteBackups` (src/utils/backup.js lines 136-144). -/
def bulkDeleteBackups (dir : BackupDir) (filenames : List FName) : BackupDir × Nat :=
  bulkDeleteGo dir 0 filenames

/-- `backups-bulk-<Date.now()>.zip` (src/utils/backup.js line 149). -/
def bulkArchiveName (ts : FName) : FName :=
  "backups-bulk-".data ++ ts ++ ".zip".data

/-- `bulkDownloadBackups` (src/utils/backup.js lines 147-168): open a
write stream at `BACKUP_DIR/backups-bulk-<now>.zip`, add each requested
backup that passes the filename pattern and exists, finalize.  The
combined archive is written into the backup directory itself (appended
as newest) and nothing removes it.  Returns the new directory, the
archive name, and the member names that were added. -/
def bulkDownloadBackups (dir : BackupDir) (filenames : List FName)
    (ts : FName) (outSize : Nat) : BackupDir × FName × List FName :=
  (dir ++ [⟨bulkArchiveName ts, outSize⟩],
   bulkArchiveName ts,
   filenames.filter (fun fn => validFilename fn && dir.any (fun f => f.name == fn)))

/-- Fault injection for `restoreBackup`'s asynchronous steps: no fault,
a failure of the unzip stream (`Extracting`), or a failure of the
`fs.rename` that swaps the images tree (`Swapping`). -/
inductive RestoreFault where
  | none
  | extractFail
  | renameFail
deriving DecidableEq

/-- `restoreBackup` (src/utils/backup.js lines 171-207).  Extract the
archive into `data/tmp-restore`; if the staged `gallery.db` exists copy
it over the live db; if a staged `images` tree exists remove the live
images tree and rename the staged one into place.  There is no
validation step of any kind: absent members are silently skipped and
the promise resolves.  The `finally` block removes the staging
directory on every exit path.  The result is
(live state after, staging directory still exists?, outcome). -/
def restoreBackup (live : LiveState) (a : Archive) (fault : RestoreFault) :
    LiveState × Bool × Except FName Unit :=
  match fault with
  | .extractFail => (live, false, .error "unzip error".data)
  | _ =>
    let live1 := match a.galleryDb with
      | some b => { live with db := b }
      | Option.none => live
    match a.images with
    | Option.none => (live1, false, .ok ())
    | some t =>
      match fault with
      | .renameFail => ({ live1 with images := Option.none }, false, .error "rename error".data)
      | _ => ({ live1 with images := some t }, false, .ok ())

/-- `POST /restore` (src/routes/admin.js lines 866-874): await
`restoreBackup(req.file.path)`; on success `fs.unlinkSync(req.file.path)`
then redirect with a success message; on a rejection the `catch` block
redirects with the failure message — the uploaded temp file is not
unlinked there.  Result: (live state, staging dir exists?, uploaded
temp file exists?, redirect message). -/
def restoreUploadRoute (live : LiveState) (tempExists : Bool) (a : Archive)
    (fault : RestoreFault) : LiveState × Bool × Bool × FName :=
  match restoreBackup live a fault with
  | (live1, staging, .ok _) => (live1, staging, false, "Backup restored!".data)
  | (live1, staging, .error e) =>
    (live1, staging, tempExists, "Failed to restore: ".data ++ e)

/-- `INSERT OR IGNORE INTO migrations (name) VALUES (?)` on a table
whose primary key is `name` (src/db.js lines 69, 81, 96): append the
row unless already present. -/
def insertOrIgnore (table : List FName) (n : FName) : List FName :=
  if n ∈ table then table else table ++ [n]

/-- `BetterSqlite3Storage.logMigration` (src/db.js lines 95-97). -/
def logMigration (table : List FName) (n : FName) : List FName :=
  insertOrIgnore table n

/-- `BetterSqlite3Storage.executed` (src/db.js lines 101-103):
`SELECT name FROM migrations`. -/
def executed (table : List FName) : List FName := table

/-- One migration unit as loaded in src/db.js lines 62-66: a name (the
filename) and its `up` transformation of the schema. -/
structure Migration (σ : Type) where
  name : FName
  up : σ → σ

/-- Modelled from the spec: `umzug.up()` — the umzug library invoked at
src/db.js line 114 is a dependency, not part of this repository.  Per
§4.3 of the spec, for each unit of the ordered list in order: skip it
when the ledger already records its name, otherwise execute `up`
against the store and record the name via the storage's
`logMigration`.  State is (schema, ledger table). -/
def umzugUp {σ : Type} : List (Migration σ) → σ × List FName → σ × List FName
  | [], st => st
  | m :: rest, st =>
    if m.name ∈ executed st.2 then umzugUp rest st
    else umzugUp rest (m.up st.1, logMigration st.2 m.name)

/-- Startup state relevant to the legacy-ledger import (src/db.js lines
69-87): the `migrations` table rows and the `data/umzug.json` file
(`none` = absent, `some names` = present with that content). -/
structure StartupState where
  table : List FName
  legacy : Option (List FName)
deriving DecidableEq

/-- The legacy `umzug.json` import (src/db.js lines 71-87): if the file
exists and the `migrations` table is empty, insert every name with
`INSERT OR IGNORE` and delete the file; otherwise do nothing. -/
def importLegacy (st : StartupState) : StartupState :=
  match st.legacy with
  | Option.none => st
  | some names =>
    if st.table = [] then
      { table := names.foldl insertOrIgnore st.table, legacy := Option.none }
    else st

/-! ## Retention lemmas -/

theorem foldl_add_sizes (l : List FileEnt) (n : Nat) :
    l.foldl (fun s b => s + b.size) n = n + (l.map FileEnt.size).sum := by
  induction l generalizing n with
  | nil => simp
  | cons a l ih => simp [ih, Nat.add_assoc]

theorem sumSizes_eq (l : List FileEnt) : sumSizes l = (l.map FileEnt.size).sum := by
  simp [sumSizes, foldl_add_sizes]

theorem listBackups_unlink (dir : BackupDir) (n : FName) :
    listBackups (unlink dir n) = (listBackups dir).filter (fun f => f.name != n) := by
  simp only [listBackups, unlink, List.filter_filter]
  exact List.filter_congr (fun f _ => Bool.and_comm _ _)

theorem nodup_unlink {dir : BackupDir} (hnd : (dir.map FileEnt.name).Nodup) (n : FName) :
    ((unlink dir n).map FileEnt.name).Nodup :=
  hnd.sublist ((List.filter_sublist dir).map FileEnt.name)

theorem listBackups_nodup {dir : BackupDir} (hnd : (dir.map FileEnt.name).Nodup) :
    ((listBackups dir).map FileEnt.name).Nodup :=
  hnd.sublist ((List.filter_sublist dir).map FileEnt.name)

theorem listBackups_head {dir : BackupDir} {f1 : FileEnt} {rest : List FileEnt}
    (hnd : (dir.map FileEnt.name).Nodup)
    (hl : listBackups dir = f1 :: rest) :
    listBackups (unlink dir f1.name) = rest := by
  have hnd2 : ((f1 :: rest).map FileEnt.name).Nodup := hl ▸ listBackups_nodup hnd
  have hne : ∀ f ∈ rest, (f.name != f1.name) = true := by
    intro f hf
    simp only [List.map_cons, List.nodup_cons, List.mem_map] at hnd2
    simp only [bne_iff_ne, ne_eq]
    intro heq
    exact hnd2.1 ⟨f, hf, heq⟩
  rw [listBackups_unlink, hl]
  have h1 : List.filter (fun f => f.name != f1.name) (f1 :: rest)
      = List.filter (fun f => f.name != f1.name) rest := by
    simp
  rw [h1]
  exact List.filter_eq_self.mpr hne

theorem total_unlink {dir : BackupDir} {f1 : FileEnt} {rest : List FileEnt}
    (hnd : (dir.map FileEnt.name).Nodup)
    (hl : listBackups dir = f1 :: rest) :
    totalBackupSize dir - f1.size = totalBackupSize (unlink dir f1.name) := by
  rw [totalBackupSize, totalBackupSize, listBackups_head hnd hl, hl, sumSizes_eq, sumSizes_eq]
  simp

/-- Invariant of the eviction loop: starting from a directory whose
zip listing is exactly the snapshot being iterated, the loop ends with
the retained total within the budget and the retained listing a suffix
(the newest entries) of the starting listing. -/
theorem cleanupLoop_spec (limit size : Nat) :
    ∀ (backups : List FileEnt) (dir : BackupDir),
      (dir.map FileEnt.name).Nodup →
      listBackups dir = backups →
      totalBackupSize (cleanupLoop limit size backups dir (totalBackupSize dir)) ≤ limit
      ∧ (listBackups (cleanupLoop limit size backups dir (totalBackupSize dir))).IsSuffix backups := by
  intro backups
  induction backups with
  | nil =>
    intro dir _ hl
    refine ⟨?_, ?_⟩
    · simp [cleanupLoop, totalBackupSize, hl, sumSizes]
    · simp [cleanupLoop, hl]
  | cons oldest rest ih =>
    intro dir hnd hl
    by_cases h : totalBackupSize dir + size ≤ limit
    · simp only [cleanupLoop, if_pos h]
      exact ⟨Nat.le_trans (Nat.le_add_right _ _) h, hl ▸ List.suffix_refl _⟩
    · simp only [cleanupLoop, if_neg h]
      rw [total_unlink hnd hl]
      have hres := ih (unlink dir oldest.name) (nodup_unlink hnd _) (listBackups_head hnd hl)
      exact ⟨hres.1, hres.2.trans (List.suffix_cons oldest rest)⟩

theorem cleanup_spec (limit : Nat) (dir : BackupDir) (size : Nat)
    (hnd : (dir.map FileEnt.name).Nodup) :
    totalBackupSize (cleanupBackupsForLimitWith limit dir size) ≤ limit
    ∧ (listBackups (cleanupBackupsForLimitWith limit dir size)).IsSuffix (listBackups dir) :=
  cleanupLoop_spec limit size (listBackups dir) dir hnd rfl

theorem isZipName_append (pre : FName) : isZipName (pre ++ zipSuffix) = true := by
  simp only [isZipName, List.isSuffixOf_iff_suffix]
  exact List.suffix_append pre zipSuffix

theorem isZipName_backupFilename (ts : FName) : isZipName (backupFilename ts) = true :=
  isZipName_append ("backup-".data ++ ts)

/-! ## C1: retention bound -/

/-- C1 counterexample: with budget 100 and three archive creations of
size 40 each, after the third creation the code retains only the third
archive — the second has also been evicted, contradicting the claim
that "exactly the oldest archive has been evicted and the second and
third remain".  (`createBackup` evicts after the new archive is
written, and counts its size both in the listing total and again as
the incoming size.) -/
theorem retention_bound_cex :
    (createBackupWith 100 ⟨[], Option.none⟩
      (createBackupWith 100 ⟨[], Option.none⟩
        (createBackupWith 100 ⟨[], Option.none⟩ [] "b1".data (.ok 40)).1
        "b2".data (.ok 40)).1
      "b3".data (.ok 40)).1
      = [⟨backupFilename "b3".data, 40⟩]
    ∧ ⟨backupFilename "b2".data, 40⟩ ∉
      (createBackupWith 100 ⟨[], Option.none⟩
        (createBackupWith 100 ⟨[], Option.none⟩
          (createBackupWith 100 ⟨[], Option.none⟩ [] "b1".data (.ok 40)).1
          "b2".data (.ok 40)).1
        "b3".data (.ok 40)).1 := by
  decide

/-- C1 (amended): for every budget `B` and every successful archive
creation, the operation resolves with the new archive's filename, the
sum of retained archive sizes afterwards is at most `B` (hence at most
`max(B, sn)`), and the retained listing is a suffix — the newest
entries — of the pre-cleanup listing, i.e. eviction is oldest-first.
However, eviction runs *after* the new archive is written, with the new
archive included in the listing and its size counted again as the
incoming size, so with budget 100 and three size-40 creations only the
third archive remains after the third creation. -/
theorem retention_bound_amended (limit size : Nat) (live : LiveState)
    (dir : BackupDir) (ts : FName)
    (hnd : ((dir ++ [(⟨backupFilename ts, size⟩ : FileEnt)]).map FileEnt.name).Nodup) :
    (createBackupWith limit live dir ts (.ok size)).2
      = .ok (backupFilename ts, buildArchive live)
    ∧ totalBackupSize (createBackupWith limit live dir ts (.ok size)).1 ≤ limit
    ∧ (listBackups (createBackupWith limit live dir ts (.ok size)).1).IsSuffix
        (listBackups (dir ++ [⟨backupFilename ts, size⟩])) := by
  refine ⟨rfl, ?_, ?_⟩
  · exact (cleanup_spec limit (dir ++ [⟨backupFilename ts, size⟩]) size hnd).1
  · exact (cleanup_spec limit (dir ++ [⟨backupFilename ts, size⟩]) size hnd).2

/-- Witness for `retention_bound_amended` at a concrete input. -/
theorem retention_bound_amended_witness :
    (([(⟨"a.zip".data, 40⟩ : FileEnt)] ++ [(⟨backupFilename "b".data, 40⟩ : FileEnt)]).map FileEnt.name).Nodup
    ∧ totalBackupSize
        (createBackupWith 100 ⟨[], Option.none⟩ [⟨"a.zip".data, 40⟩] "b".data (.ok 40)).1 ≤ 100 := by
  have h := retention_bound_amended 100 40 ⟨[], Option.none⟩
    [(⟨"a.zip".data, 40⟩ : FileEnt)] "b".data (by decide)
  exact ⟨by decide, h.2.1⟩

/-! ## C4: partial archive on build failure -/

/-- C4 counterexample: when the archiver errors mid-stream,
`createBackup` rejects but never unlinks the partially written
container — it remains in the backup directory and is visible to
`listBackups`, contradicting "the partially written container file is
removed from the archive directory (it is not left visible to
listing)". -/
theorem partial_archive_cex :
    (createBackup ⟨[], Option.none⟩ [] "t".data (.ioError 10)).2
      = .error "archive error".data
    ∧ listBackups (createBackup ⟨[], Option.none⟩ [] "t".data (.ioError 10)).1
      = [⟨backupFilename "t".data, 10⟩] := by
  decide

/-- C4 (amended): on an archive build I/O failure the operation
reports failure and no retention eviction occurs (every pre-existing
archive is retained unchanged), but the partially written container is
*not* removed: it stays in the archive directory and, since its name
ends in `.zip`, it is visible to listing. -/
theorem partial_archive_amended (limit psize : Nat) (live : LiveState)
    (dir : BackupDir) (ts : FName) :
    createBackupWith limit live dir ts (.ioError psize)
      = (dir ++ [⟨backupFilename ts, psize⟩], .error "archive error".data)
    ∧ (⟨backupFilename ts, psize⟩ : FileEnt) ∈
        listBackups (dir ++ [⟨backupFilename ts, psize⟩]) := by
  refine ⟨rfl, ?_⟩
  simp [listBackups, List.mem_filter, isZipName_backupFilename]

/-! ## C9: self-eviction on create -/

/-- C9: with an empty backup directory and a single new archive of
size 300 MiB (whose doubled size exceeds the 500 MB limit),
`createBackup`'s post-write cleanup lists the just-written archive
among existing backups, adds its size again as the incoming size, and
unlinks the newly created archive itself — yet the operation still
resolves successfully with that archive's filename. -/
theorem createBackup_self_eviction :
    createBackup ⟨[], Option.none⟩ [] "t".data (.ok 314572800)
      = ([], .ok (backupFilename "t".data, buildArchive ⟨[], Option.none⟩))
    ∧ 2 * 314572800 > BACKUP_LIMIT_BYTES
    ∧ listBackups [⟨backupFilename "t".data, 314572800⟩]
      = [⟨backupFilename "t".data, 314572800⟩] := by
  refine ⟨by decide, by decide, by decide⟩

/-! ## C2: restore validation -/

/-- C2 counterexample: feeding `restoreBackup` an archive that lacks
the `gallery.db` member (but carries an `images` member) returns a
successful result — not a Failed one — and replaces the live asset
tree, so the live state is not byte-identical to its pre-restore
state.  The code contains no validation step at all. -/
theorem restore_validation_cex :
    restoreBackup ⟨[1, 2], some []⟩ ⟨Option.none, some [("x".data, [9])]⟩ .none
      = (⟨[1, 2], some [("x".data, [9])]⟩, false, .ok ())
    ∧ (⟨[1, 2], some [("x".data, [9])]⟩ : LiveState) ≠ ⟨[1, 2], some []⟩ := by
  decide

/-- C2 (amended): `restoreBackup` performs no validation.  An archive
lacking the store-file member completes successfully rather than
failing: the live store file stays unchanged only because the copy step
is skipped, while an `images` member present in such an archive still
replaces the live asset tree.  There is no core-table check either:
whatever bytes the `gallery.db` member holds are copied over the live
store file and the operation still reports success. -/
theorem restore_no_validation_amended (live : LiveState)
    (t : List (FName × Bytes)) (b : Bytes) :
    restoreBackup live ⟨Option.none, some t⟩ .none
      = ({ live with images := some t }, false, .ok ())
    ∧ restoreBackup live ⟨Option.none, Option.none⟩ .none = (live, false, .ok ())
    ∧ restoreBackup live ⟨some b, Option.none⟩ .none
      = ({ live with db := b }, false, .ok ()) :=
  ⟨rfl, rfl, rfl⟩

/-! ## C5: staging cleanup -/

/-- C5 counterexample: a restore that fails during extraction does
remove the staging directory, but the uploaded temporary archive file
is left on disk — `POST /restore` only unlinks `req.file.path` on the
success path, contradicting "on every exit path … any temporary
uploaded archive file are removed". -/
theorem staging_cleanup_cex :
    restoreUploadRoute ⟨[], Option.none⟩ true ⟨Option.none, Option.none⟩ .extractFail
      = (⟨[], Option.none⟩, false, true,
         "Failed to restore: ".data ++ "unzip error".data) := by
  decide

/-- C5 (amended): on every exit path of a restore — success, extraction
failure, or mid-swap exception — the staging directory is removed (the
`finally` block), but the uploaded temporary archive file is removed
only when the restore succeeds; on any failing path it remains on
disk. -/
theorem staging_cleanup_amended (live : LiveState) (temp : Bool)
    (a : Archive) (fault : RestoreFault) :
    (restoreBackup live a fault).2.1 = false
    ∧ (restoreUploadRoute live temp a fault).2.1 = false
    ∧ (restoreUploadRoute live temp a fault).2.2.1
      = (match (restoreBackup live a fault).2.2 with
         | .ok _ => false
         | .error _ => temp) := by
  rcases a with ⟨gdb, imgs⟩
  cases fault <;> cases imgs <;> exact ⟨rfl, rfl, rfl⟩

/-! ## C7: restore round-trip -/

/-- C7: a successful archive build captures exactly the live store file
and asset tree, and immediately restoring from that archive (with no
concurrent mutation and no fault) leaves the live store file and asset
tree byte-identical to their pre-build state. -/
theorem restore_round_trip (limit size : Nat) (live : LiveState)
    (dir : BackupDir) (ts : FName) :
    (createBackupWith limit live dir ts (.ok size)).2
      = .ok (backupFilename ts, buildArchive live)
    ∧ restoreBackup live (buildArchive live) .none = (live, false, .ok ()) := by
  refine ⟨rfl, ?_⟩
  rcases live with ⟨db, imgs⟩
  cases imgs <;> rfl

/-! ## C10: bulk-download output joins the snapshot set -/

theorem listBackups_append_zip (dir : BackupDir) (f : FileEnt)
    (hf : isZipName f.name = true) :
    listBackups (dir ++ [f]) = listBackups dir ++ [f] := by
  simp [listBackups, List.filter_append, hf]

theorem totalBackupSize_append_zip (dir : BackupDir) (f : FileEnt)
    (hf : isZipName f.name = true) :
    totalBackupSize (dir ++ [f]) = totalBackupSize dir + f.size := by
  simp [totalBackupSize, listBackups_append_zip dir f hf, sumSizes_eq]

/-- C10: the combined container produced by a bulk download is written
into the backup directory itself under a name ending in `.zip`, so it
appears in every subsequent snapshot listing, and its size is counted
by `totalBackupSize` — hence toward the retention budget in every
subsequent eviction pass (which consults exactly that listing and
total). -/
theorem bulk_download_joins (dir : BackupDir) (filenames : List FName)
    (ts : FName) (outSize : Nat) :
    (bulkDownloadBackups dir filenames ts outSize).2.1 = bulkArchiveName ts
    ∧ isZipName (bulkArchiveName ts) = true
    ∧ (⟨bulkArchiveName ts, outSize⟩ : FileEnt) ∈
        listBackups (bulkDownloadBackups dir filenames ts outSize).1
    ∧ totalBackupSize (bulkDownloadBackups dir filenames ts outSize).1
      = totalBackupSize dir + outSize := by
  have hz : isZipName (bulkArchiveName ts) = true :=
    isZipName_append ("backups-bulk-".data ++ ts)
  refine ⟨rfl, hz, ?_, ?_⟩
  · rw [show (bulkDownloadBackups dir filenames ts outSize).1
        = dir ++ [⟨bulkArchiveName ts, outSize⟩] from rfl,
      listBackups_append_zip dir _ hz]
    simp
  · exact totalBackupSize_append_zip dir _ hz

/-! ## Ledger lemmas -/

theorem mem_insertOrIgnore_self (table : List FName) (n : FName) :
    n ∈ insertOrIgnore table n := by
  by_cases h : n ∈ table <;> simp [insertOrIgnore, h]

theorem mem_insertOrIgnore_of_mem {table : List FName} {a : FName}
    (h : a ∈ table) (n : FName) : a ∈ insertOrIgnore table n := by
  by_cases hn : n ∈ table <;> simp [insertOrIgnore, hn, h]

theorem insertOrIgnore_idem (table : List FName) (n : FName) :
    insertOrIgnore (insertOrIgnore table n) n = insertOrIgnore table n := by
  by_cases h : n ∈ table <;> simp [insertOrIgnore, h]

theorem insertOrIgnore_of_not_mem {table : List FName} {n : FName} (h : n ∉ table) :
    insertOrIgnore table n = table ++ [n] := by
  simp [insertOrIgnore, h]

theorem umzugUp_mem_mono {σ : Type} :
    ∀ (migs : List (Migration σ)) (st : σ × List FName) (n : FName),
      n ∈ st.2 → n ∈ (umzugUp migs st).2 := by
  intro migs
  induction migs with
  | nil => intro st n h; exact h
  | cons m rest ih =>
    intro st n h
    by_cases hm : m.name ∈ executed st.2
    · rw [umzugUp, if_pos hm]; exact ih st n h
    · rw [umzugUp, if_neg hm]
      exact ih _ n (mem_insertOrIgnore_of_mem h m.name)

theorem umzugUp_applied {σ : Type} :
    ∀ (migs : List (Migration σ)) (st : σ × List FName) (m : Migration σ),
      m ∈ migs → m.name ∈ (umzugUp migs st).2 := by
  intro migs
  induction migs with
  | nil => intro st m h; cases h
  | cons m0 rest ih =>
    intro st m hm
    rcases List.mem_cons.mp hm with h | h
    · subst h
      by_cases h0 : m.name ∈ executed st.2
      · rw [umzugUp, if_pos h0]; exact umzugUp_mem_mono rest st m.name h0
      · rw [umzugUp, if_neg h0]
        exact umzugUp_mem_mono rest _ m.name (mem_insertOrIgnore_self st.2 m.name)
    · by_cases h0 : m0.name ∈ executed st.2
      · rw [umzugUp, if_pos h0]; exact ih st m h
      · rw [umzugUp, if_neg h0]; exact ih _ m h

theorem umzugUp_skip_all {σ : Type} :
    ∀ (migs : List (Migration σ)) (st : σ × List FName),
      (∀ m ∈ migs, m.name ∈ st.2) → umzugUp migs st = st := by
  intro migs
  induction migs with
  | nil => intro st _; rfl
  | cons m rest ih =>
    intro st h
    rw [umzugUp,
      if_pos (show m.name ∈ executed st.2 from h m (List.mem_cons_self m rest))]
    exact ih st (fun m' hm' => h m' (List.mem_cons_of_mem m hm'))

theorem umzugUp_idem {σ : Type} (migs : List (Migration σ)) (st : σ × List FName) :
    umzugUp migs (umzugUp migs st) = umzugUp migs st :=
  umzugUp_skip_all migs _ (fun m hm => umzugUp_applied migs st m hm)

theorem count_one_of_nodup {l : List FName} {a : FName}
    (hnd : l.Nodup) (h : a ∈ l) : l.count a = 1 := by
  induction l with
  | nil => cases h
  | cons b rest ih =>
    simp only [List.nodup_cons] at hnd
    rcases List.mem_cons.mp h with h | h
    · subst h
      rw [List.count_cons_self, List.count_eq_zero_of_not_mem hnd.1]
    · have hne : a ≠ b := fun e => hnd.1 (e ▸ h)
      rw [List.count_cons_of_ne hne, ih hnd.2 h]

theorem umzugUp_fresh {σ : Type} :
    ∀ (migs : List (Migration σ)) (st : σ × List FName),
      (migs.map (fun m => m.name)).Nodup →
      (∀ m ∈ migs, m.name ∉ st.2) →
      (umzugUp migs st).2 = st.2 ++ migs.map (fun m => m.name) := by
  intro migs
  induction migs with
  | nil => intro st _ _; simp [umzugUp]
  | cons m rest ih =>
    intro st hnd hfresh
    have hm : m.name ∉ st.2 := hfresh m (List.mem_cons_self m rest)
    rw [umzugUp, if_neg (show m.name ∉ executed st.2 from hm)]
    have hlog : logMigration st.2 m.name = st.2 ++ [m.name] :=
      insertOrIgnore_of_not_mem hm
    simp only [List.map_cons, List.nodup_cons] at hnd
    have hfresh2 : ∀ m' ∈ rest, m'.name ∉ st.2 ++ [m.name] := by
      intro m' hm' hmem
      rcases List.mem_append.mp hmem with h | h
      · exact hfresh m' (List.mem_cons_of_mem m hm') h
      · rcases List.mem_singleton.mp h with h
        exact hnd.1 (h ▸ List.mem_map_of_mem (fun x => x.name) hm')
    have := ih (m.up st.1, logMigration st.2 m.name) hnd.2
      (by rw [show (m.up st.1, logMigration st.2 m.name).2 = st.2 ++ [m.name] from hlog]
          exact hfresh2)
    rw [this]
    simp [hlog]

/-! ## C3: migration idempotency -/

/-- C3: running the full ordered unit list against a store on which it
has already been fully applied is a no-op: the second run yields the
same schema and ledger as the first.  Starting from an empty ledger,
the ledger afterwards is exactly the list of unit names, containing
each unit exactly once; and `logMigration` (the `INSERT OR IGNORE`
ledger insert) is idempotent and total — it raises no error when the
name is already present. -/
theorem migration_idempotency {σ : Type} (migs : List (Migration σ))
    (s : σ) (l : List FName)
    (hnd : (migs.map (fun m => m.name)).Nodup) :
    umzugUp migs (umzugUp migs (s, l)) = umzugUp migs (s, l)
    ∧ (umzugUp migs (s, [])).2 = migs.map (fun m => m.name)
    ∧ (∀ m ∈ migs, ((umzugUp migs (s, [])).2).count m.name = 1)
    ∧ (∀ table n, logMigration (logMigration table n) n = logMigration table n) := by
  have hfresh : (umzugUp migs ((s, []) : σ × List FName)).2
      = migs.map (fun m => m.name) := by
    simpa using umzugUp_fresh migs (s, []) hnd (by intro m _; simp)
  refine ⟨umzugUp_idem migs (s, l), hfresh, ?_, ?_⟩
  · intro m hm
    rw [hfresh]
    exact count_one_of_nodup hnd (List.mem_map_of_mem (fun x => x.name) hm)
  · intro table n
    exact insertOrIgnore_idem table n

/-- Witness for `migration_idempotency` at two concrete units. -/
theorem migration_idempotency_witness :
    (([⟨"001".data, fun s => s ++ [1]⟩, ⟨"002".data, fun s => s ++ [2]⟩]
        : List (Migration (List Nat))).map (fun m => m.name)).Nodup
    ∧ umzugUp [⟨"001".data, fun s => s ++ [1]⟩, ⟨"002".data, fun s => s ++ [2]⟩]
        (umzugUp [⟨"001".data, fun s => s ++ [1]⟩, ⟨"002".data, fun s => s ++ [2]⟩]
          (([] : List Nat), []))
      = umzugUp [⟨"001".data, fun s => s ++ [1]⟩, ⟨"002".data, fun s => s ++ [2]⟩]
          (([] : List Nat), [])
    ∧ (umzugUp [⟨"001".data, fun s => s ++ [1]⟩, ⟨"002".data, fun s => s ++ [2]⟩]
        (([] : List Nat), [])).2
      = ["001".data, "002".data] := by
  have h := migration_idempotency
    [⟨"001".data, fun s => s ++ [1]⟩, ⟨"002".data, fun s => s ++ [2]⟩]
    ([] : List Nat) [] (by decide)
  exact ⟨by decide, h.1, h.2.1⟩

/-! ## C6: legacy import exactly-once -/

theorem mem_foldl_insertOrIgnore_of_mem :
    ∀ (ns : List FName) (t : List FName) (a : FName),
      a ∈ t → a ∈ ns.foldl insertOrIgnore t := by
  intro ns
  induction ns with
  | nil => intro t a h; exact h
  | cons n rest ih =>
    intro t a h
    exact ih (insertOrIgnore t n) a (mem_insertOrIgnore_of_mem h n)

theorem mem_foldl_insertOrIgnore :
    ∀ (ns : List FName) (t : List FName) (n : FName),
      n ∈ ns → n ∈ ns.foldl insertOrIgnore t := by
  intro ns
  induction ns with
  | nil => intro t n h; cases h
  | cons m rest ih =>
    intro t n h
    rcases List.mem_cons.mp h with h | h
    · subst h
      exact mem_foldl_insertOrIgnore_of_mem rest _ n (mem_insertOrIgnore_self t n)
    · exact ih _ n h

/-- C6: if the legacy flat-file ledger exists and the ledger table is
empty, every name in the legacy file becomes an applied ledger entry
and the legacy file is then deleted; if the table is non-empty, nothing
is imported or changed; and a second import attempt is always a no-op
(after a successful import the legacy file is gone, and otherwise the
first attempt already changed nothing). -/
theorem legacy_import_once (st : StartupState) :
    (∀ ns, st.legacy = some ns → st.table = [] →
        (∀ n ∈ ns, n ∈ (importLegacy st).table)
        ∧ (importLegacy st).legacy = Option.none)
    ∧ (st.table ≠ [] → importLegacy st = st)
    ∧ importLegacy (importLegacy st) = importLegacy st := by
  refine ⟨?_, ?_, ?_⟩
  · intro ns hl ht
    have h2 : importLegacy st
        = { table := ns.foldl insertOrIgnore [], legacy := Option.none } := by
      simp [importLegacy, hl, ht]
    rw [h2]
    exact ⟨fun n hn => mem_foldl_insertOrIgnore ns [] n hn, rfl⟩
  · intro ht
    cases hleg : st.legacy with
    | none => simp [importLegacy, hleg]
    | some ns => simp [importLegacy, hleg, ht]
  · cases hleg : st.legacy with
    | none => simp [importLegacy, hleg]
    | some ns =>
      by_cases ht : st.table = []
      · simp [importLegacy, hleg, ht]
      · simp [importLegacy, hleg, ht]

/-- Witness for `legacy_import_once` on a legacy ledger `{A, B}` and an
empty ledger table. -/
theorem legacy_import_once_witness :
    ("A".data ∈ (importLegacy ⟨[], some ["A".data, "B".data]⟩).table
      ∧ "B".data ∈ (importLegacy ⟨[], some ["A".data, "B".data]⟩).table)
    ∧ (importLegacy ⟨[], some ["A".data, "B".data]⟩).legacy = Option.none
    ∧ importLegacy (importLegacy ⟨[], some ["A".data, "B".data]⟩)
      = importLegacy ⟨[], some ["A".data, "B".data]⟩ := by
  have h := legacy_import_once ⟨[], some ["A".data, "B".data]⟩
  have h1 := h.1 ["A".data, "B".data] rfl rfl
  exact ⟨⟨h1.1 _ (by decide), h1.1 _ (by decide)⟩, h1.2, h.2.2⟩

/-! ## C8: bulk-delete filename safety -/

/-- Full characterization of the bulk-delete loop: with distinct file
names in the directory and distinct requested names, the loop removes
exactly the files whose names are both pattern-valid and requested, and
adds to the accumulator one count per requested name that is valid and
present in the starting directory. -/
theorem bulkDeleteGo_spec :
    ∀ (fns : List FName) (dir : BackupDir) (acc : Nat),
      (dir.map FileEnt.name).Nodup → fns.Nodup →
      bulkDeleteGo dir acc fns
        = (dir.filter (fun f => !(validFilename f.name && fns.contains f.name)),
           acc + (fns.filter (fun n => validFilename n && dir.any (fun f => f.name == n))).length) := by
  intro fns
  induction fns with
  | nil =>
    intro dir acc _ _
    simp [bulkDeleteGo]
  | cons fn rest ih =>
    intro dir acc hdir hfns
    rw [List.nodup_cons] at hfns
    cases hv : validFilename fn with
    | false =>
      have hd : deleteBackup dir fn = (dir, .error "Invalid filename".data) := by
        simp [deleteBackup, hv]
      have hstep : bulkDeleteGo dir acc (fn :: rest) = bulkDeleteGo dir acc rest := by
        rw [bulkDeleteGo, hd]
      rw [hstep, ih dir acc hdir hfns.2]
      have e1 : dir.filter (fun f => !(validFilename f.name && rest.contains f.name))
          = dir.filter (fun f => !(validFilename f.name && (fn :: rest).contains f.name)) := by
        refine List.filter_congr ?_
        intro f _
        by_cases hfn : f.name = fn
        · rw [hfn]; simp [hv]
        · simp [List.contains_cons, hfn]
      have e2 : rest.filter (fun n => validFilename n && dir.any (fun f => f.name == n))
          = (fn :: rest).filter (fun n => validFilename n && dir.any (fun f => f.name == n)) := by
        rw [List.filter_cons]
        simp [hv]
      rw [e1, e2]
    | true =>
      cases hp : dir.any (fun f => f.name == fn) with
      | false =>
        have hd : deleteBackup dir fn = (dir, .ok false) := by
          simp [deleteBackup, hv, hp]
        have hstep : bulkDeleteGo dir acc (fn :: rest) = bulkDeleteGo dir acc rest := by
          rw [bulkDeleteGo, hd]
        have hne : ∀ f ∈ dir, (f.name == fn) = false := by
          intro f hf
          have := List.any_eq_false.mp hp f hf
          simpa using this
        rw [hstep, ih dir acc hdir hfns.2]
        have e1 : dir.filter (fun f => !(validFilename f.name && rest.contains f.name))
            = dir.filter (fun f => !(validFilename f.name && (fn :: rest).contains f.name)) := by
          refine List.filter_congr ?_
          intro f hf
          simp only [List.contains_cons, hne f hf, Bool.false_or]
        have e2 : rest.filter (fun n => validFilename n && dir.any (fun f => f.name == n))
            = (fn :: rest).filter (fun n => validFilename n && dir.any (fun f => f.name == n)) := by
          rw [List.filter_cons]
          simp [hp]
        rw [e1, e2]
      | true =>
        have hd : deleteBackup dir fn = (unlink dir fn, .ok true) := by
          simp [deleteBackup, hv, hp]
        have hstep : bulkDeleteGo dir acc (fn :: rest)
            = bulkDeleteGo (unlink dir fn) (acc + 1) rest := by
          rw [bulkDeleteGo, hd]
        rw [hstep, ih (unlink dir fn) (acc + 1) (nodup_unlink hdir fn) hfns.2]
        have e1 : (unlink dir fn).filter
              (fun f => !(validFilename f.name && rest.contains f.name))
            = dir.filter (fun f => !(validFilename f.name && (fn :: rest).contains f.name)) := by
          rw [unlink, List.filter_filter]
          refine List.filter_congr ?_
          intro f _
          by_cases hfn : f.name = fn
          · rw [hfn]; simp [hv]
          · simp [List.contains_cons, hfn]
        have e2 : rest.filter (fun n => validFilename n && (unlink dir fn).any (fun f => f.name == n))
            = rest.filter (fun n => validFilename n && dir.any (fun f => f.name == n)) := by
          refine List.filter_congr ?_
          intro n hn
          have hne : n ≠ fn := fun e => hfns.1 (e ▸ hn)
          have hfun : (fun f : FileEnt => (f.name != fn) && (f.name == n))
              = (fun f : FileEnt => f.name == n) := by
            funext f
            by_cases hfn2 : f.name = n
            · simp [hfn2, hne]
            · simp [hfn2]
          rw [unlink, List.any_filter, hfun]
        have e3 : ((fn :: rest).filter
              (fun n => validFilename n && dir.any (fun f => f.name == n))).length
            = (rest.filter (fun n => validFilename n && dir.any (fun f => f.name == n))).length
              + 1 := by
          rw [List.filter_cons]
          simp [hv, hp]
        rw [e1, e2, e3]
        simp [Nat.add_assoc, Nat.add_comm]

/-- C8: for every list of names (pairwise distinct, dispatched against
a directory with distinct file names), bulk delete validates each name
against the strict filename pattern before touching the filesystem —
an invalid name leaves the directory untouched — deletes exactly the
existing archives whose names are pattern-valid and requested, and
returns the count of deletions: the number of requested names that are
valid and present.  In particular, requesting
`["../../etc/passwd", "valid-20240101.zip"]` against a directory
holding only the second deletes only the second, skips the first, and
returns 1 (see the witness). -/
theorem bulk_delete_safety (dir : BackupDir) (filenames : List FName)
    (hdir : (dir.map FileEnt.name).Nodup) (hfns : filenames.Nodup) :
    bulkDeleteBackups dir filenames
      = (dir.filter (fun f => !(validFilename f.name && filenames.contains f.name)),
         (filenames.filter (fun n => validFilename n && dir.any (fun f => f.name == n))).length) := by
  have h := bulkDeleteGo_spec filenames dir 0 hdir hfns
  simpa [bulkDeleteBackups] using h

/-- Witness for `bulk_delete_safety`: the claim's own example —
`bulkDelete(["../../etc/passwd", "valid-20240101.zip"])` with the
second file present deletes only the second and returns 1. -/
theorem bulk_delete_safety_witness :
    (([(⟨"valid-20240101.zip".data, 10⟩ : FileEnt)].map FileEnt.name).Nodup
      ∧ (["../../etc/passwd".data, "valid-20240101.zip".data] : List FName).Nodup)
    ∧ bulkDeleteBackups [(⟨"valid-20240101.zip".data, 10⟩ : FileEnt)]
        ["../../etc/passwd".data, "valid-20240101.zip".data] = ([], 1) := by
  have h := bulk_delete_safety [(⟨"valid-20240101.zip".data, 10⟩ : FileEnt)]
    ["../../etc/passwd".data, "valid-20240101.zip".data] (by decide) (by decide)
  refine ⟨⟨by decide, by decide⟩, ?_⟩
  rw [h]
  decide

end FocalPoint
